import Mathlib

/-!
Verification of the numeric conversion core of `bitwise-visualizer`.

The development shallowly embeds the pure functions of the repository:

* `bigIntToBytes`, `parseInput`, `calculateMinBytes` from the utility module
  (`src/unnamed/part_000`), and
* `dynamicByteLength` and the `interpretations` record (with its `safeGet`
  availability guard) from `src/App.tsx`.

JavaScript `BigInt` values are embedded as `Int`.  The bitwise operations of
the source (`temp & 0xFFn`, `temp >>= 8n`) are embedded as `Int.emod _ 256`
and `Int.ediv _ 256`: for arbitrary-precision integers, `&` with the positive
mask `0xFF` is the two's-complement low byte, i.e. the non-negative remainder
modulo 256, and the arithmetic right shift by 8 is floor division by 256,
which coincides with Euclidean division for the positive divisor 256.
Strings are embedded as `String` / `List Char`; the built-in `BigInt(string)`
conversion is embedded by `strToBigInt` following the ECMAScript
`StringToBigInt` grammar (optional surrounding whitespace; empty means zero;
`0x`/`0X`, `0o`/`0O`, `0b`/`0B` radix forms without a sign; otherwise decimal
digits with an optional sign; any other character is a syntax error, embedded
as `none`).
-/

namespace BitwiseVisualizer

/-- Loop body of `bigIntToBytes`: push `Number(temp & 0xFFn)` and shift
`temp >>= 8n`, repeated `length` times, least-significant byte first. -/
def toBytesLoop : Nat → Int → List Int
  | 0, _ => []
  | n + 1, temp => temp % 256 :: toBytesLoop n (temp / 256)

/-- `bigIntToBytes(value, length, isLittleEndian)` from the utility module:
extract `length` bytes LSB-first; reverse the list for big-endian output. -/
def bigIntToBytes (value : Int) (length : Nat) (isLittleEndian : Bool) : List Int :=
  let bytes := toBytesLoop length value
  if isLittleEndian then bytes else bytes.reverse

/-- Horner-form value of a little-endian byte list: the sum of
`byte[i] * 256^i` over all indices. -/
def sumBytesLE : List Int → Int
  | [] => 0
  | b :: bs => b + 256 * sumBytesLE bs

/-- Matches the JavaScript regular expression class `\s` (the characters
removed by `.replace(/\s/g, '')`). -/
def isJsWhitespace (c : Char) : Bool :=
  let n := c.toNat
  (decide (9 ≤ n) && decide (n ≤ 13)) || n == 32 || n == 160 || n == 5760 ||
    (decide (8192 ≤ n) && decide (n ≤ 8202)) || n == 8232 || n == 8233 ||
    n == 8239 || n == 8287 || n == 12288 || n == 65279

/-- The cleaned input of `parseInput`:
`input.replace(/\s/g, '').replace(/_/g, '')` as a character list. -/
def cleanChars (input : String) : List Char :=
  (input.toList.filter (fun c => !isJsWhitespace c)).filter (fun c => !(c == '_'))

/-- Value of a single character as a numeric digit in the given ranges,
expressed on the character code. -/
def hexDigitVal (n : Nat) : Option Nat :=
  if 48 ≤ n ∧ n ≤ 57 then some (n - 48)
  else if 97 ≤ n ∧ n ≤ 102 then some (n - 97 + 10)
  else if 65 ≤ n ∧ n ≤ 70 then some (n - 65 + 10)
  else none

/-- Hexadecimal digit value of a character (`0-9`, `a-f`, `A-F`). -/
def hexDigit? (c : Char) : Option Nat :=
  hexDigitVal c.toNat

/-- Decimal digit value of a character. -/
def decDigit? (c : Char) : Option Nat :=
  if 48 ≤ c.toNat ∧ c.toNat ≤ 57 then some (c.toNat - 48) else none

/-- Octal digit value of a character. -/
def octDigit? (c : Char) : Option Nat :=
  if 48 ≤ c.toNat ∧ c.toNat ≤ 55 then some (c.toNat - 48) else none

/-- Binary digit value of a character. -/
def binDigit? (c : Char) : Option Nat :=
  if c.toNat = 48 ∨ c.toNat = 49 then some (c.toNat - 48) else none

/-- Accumulate the remaining digits of a numeral; any non-digit character is
a syntax error (`none`). -/
def parseDigitsFrom (base : Nat) (dig : Char → Option Nat) : Nat → List Char → Option Nat
  | acc, [] => some acc
  | acc, c :: cs =>
    match dig c with
    | some d => parseDigitsFrom base dig (base * acc + d) cs
    | none => none

/-- Read a non-empty sequence of digits in the given base; empty input or a
non-digit character is a syntax error (`none`). -/
def parseDigits (base : Nat) (dig : Char → Option Nat) : List Char → Option Nat
  | [] => none
  | c :: cs =>
    match dig c with
    | some d => parseDigitsFrom base dig d cs
    | none => none

/-- Strip surrounding whitespace, as the ECMAScript `StringToBigInt`
conversion does before matching the numeric grammar. -/
def trimWs (cs : List Char) : List Char :=
  ((cs.dropWhile isJsWhitespace).reverse.dropWhile isJsWhitespace).reverse

/-- Grammar of the ECMAScript `StringToBigInt` conversion, applied to the
already-trimmed text: `none` embeds the thrown `SyntaxError`. -/
def strToBigIntCore (s : List Char) : Option Int :=
  match s with
  | [] => some 0
  | c :: rest =>
    if c = '0' then
      match rest with
      | [] => some 0
      | x :: rest2 =>
        if x = 'x' ∨ x = 'X' then (parseDigits 16 hexDigit? rest2).map (fun n => (n : Int))
        else if x = 'o' ∨ x = 'O' then (parseDigits 8 octDigit? rest2).map (fun n => (n : Int))
        else if x = 'b' ∨ x = 'B' then (parseDigits 2 binDigit? rest2).map (fun n => (n : Int))
        else (parseDigits 10 decDigit? (c :: rest)).map (fun n => (n : Int))
    else if c = '+' then (parseDigits 10 decDigit? rest).map (fun n => (n : Int))
    else if c = '-' then (parseDigits 10 decDigit? rest).map (fun n => -(n : Int))
    else (parseDigits 10 decDigit? (c :: rest)).map (fun n => (n : Int))

/-- The ECMAScript `BigInt(string)` conversion: trim surrounding whitespace,
then match the numeric grammar. -/
def strToBigInt (s : List Char) : Option Int :=
  strToBigIntCore (trimWs s)

/-- The two input formats of `parseInput`. -/
inductive InputType
  | hex
  | dec
deriving DecidableEq

/-- For hex format the source wraps the cleaned input:
`cleanInput.startsWith('0x') ? cleanInput : '0x' + cleanInput`
(a case-sensitive test for the lowercase `0x`). -/
def hexArg (cs : List Char) : List Char :=
  match cs with
  | '0' :: 'x' :: rest => '0' :: 'x' :: rest
  | _ => '0' :: 'x' :: cs

/-- The exact string handed to the `BigInt` constructor by `parseInput`. -/
def bigIntArg (input : String) (t : InputType) : List Char :=
  match t with
  | .hex => hexArg (cleanChars input)
  | .dec => cleanChars input

/-- `parseInput(input, type)` from the utility module: empty input is zero
(`if (!input) return 0n`); otherwise the cleaned (and for hex, prefixed)
string goes through `BigInt`, and the surrounding `try/catch` maps a
`SyntaxError` to `0n`. -/
def parseInput (input : String) (t : InputType) : Int :=
  if input.toList = [] then 0
  else Option.getD (strToBigInt (bigIntArg input t)) 0

/-- Value of a string of hexadecimal digits read as a hexadecimal numeral
(empty string reads as zero). -/
def hexValue (cs : List Char) : Nat :=
  cs.foldl (fun a c => 16 * a + (hexDigit? c).getD 0) 0

/-- Two characters differ at most in letter case: they are equal, or one is
the uppercase ASCII letter whose lowercase form (code + 32) is the other. -/
def caseEquiv (c d : Char) : Prop :=
  c.toNat = d.toNat ∨
    (c.toNat + 32 = d.toNat ∧ 65 ≤ c.toNat ∧ c.toNat ≤ 90) ∨
    (d.toNat + 32 = c.toNat ∧ 65 ≤ d.toNat ∧ d.toNat ≤ 90)

/-- Length of `absVal.toString(16)`, the hexadecimal digit string of a
natural number, computed with explicit fuel (the number itself suffices,
since dividing by 16 shrinks faster than the fuel). -/
def hexLenAux : Nat → Nat → Nat
  | 0, _ => 1
  | fuel + 1, n => if n < 16 then 1 else 1 + hexLenAux fuel (n / 16)

/-- Number of hexadecimal digits of `n` (for `n = 0` the string is `"0"`,
but the caller treats zero separately). -/
def hexLen (n : Nat) : Nat :=
  hexLenAux n n

/-- `calculateMinBytes(value)` from the utility module: 1 for zero, else
`Math.ceil(absVal.toString(16).length / 2)`. -/
def calculateMinBytes (value : Int) : Nat :=
  if value = 0 then 1
  else (hexLen value.natAbs + 1) / 2

/-- `dynamicByteLength` from `App.tsx`:
`Math.max(byteWidth, Math.ceil(minBytes / byteWidth) * byteWidth)`. -/
def dynamicByteLength (rawValue : Int) (byteWidth : Nat) : Nat :=
  let minBytes := calculateMinBytes rawValue
  max byteWidth ((minBytes + byteWidth - 1) / byteWidth * byteWidth)

/-- The ten reinterpretation entries computed in `App.tsx`. -/
inductive InterpKind
  | int8
  | uint8
  | int16
  | uint16
  | int32
  | uint32
  | float32
  | int64
  | uint64
  | float64
deriving DecidableEq

/-- The `minBytes` argument passed to `safeGet` for each entry. -/
def minBytesOf : InterpKind → Nat
  | .int8 => 1
  | .uint8 => 1
  | .int16 => 2
  | .uint16 => 2
  | .int32 => 4
  | .uint32 => 4
  | .float32 => 4
  | .int64 => 8
  | .uint64 => 8
  | .float64 => 8

/-- Unsigned read of `w` bytes from the zero-initialised 8-byte view at
offset 0, honouring the endianness flag, as `DataView.getUint*` does. -/
def readUint (view : Nat → Int) (w : Nat) (le : Bool) : Int :=
  ∑ i ∈ Finset.range w, view i * 256 ^ (if le then i else w - 1 - i)

/-- Two's-complement reading of an unsigned `wBytes`-byte value, as the
`DataView.getInt*` getters do. -/
def twosComplement (u : Int) (wBytes : Nat) : Int :=
  if u < 2 ^ (8 * wBytes - 1) then u else u - 2 ^ (8 * wBytes)

/-- The `interpretations` record of `App.tsx`: an 8-byte zero-initialised
buffer receives the first `min(memoryBytes.length, 8)` bytes, and
`safeGet(getter, minBytes)` yields `null` (`none`) when fewer than
`minBytes` bytes were written, otherwise the getter's value.  The float
entries carry the raw bit pattern of the view (IEEE-754 decoding is outside
the integer embedding and not needed for the availability contract). -/
def interpretations (memoryBytes : List Int) (le : Bool) (k : InterpKind) : Option Int :=
  let bytesToRead := min memoryBytes.length 8
  let view : Nat → Int := fun i => if i < bytesToRead then memoryBytes.getD i 0 else 0
  if bytesToRead < minBytesOf k then none
  else some (match k with
    | .int8 => twosComplement (view 0) 1
    | .uint8 => view 0
    | .int16 => twosComplement (readUint view 2 le) 2
    | .uint16 => readUint view 2 le
    | .int32 => twosComplement (readUint view 4 le) 4
    | .uint32 => readUint view 4 le
    | .float32 => readUint view 4 le
    | .int64 => twosComplement (readUint view 8 le) 8
    | .uint64 => readUint view 8 le
    | .float64 => readUint view 8 le)

/-! ### Helper lemmas -/

theorem toBytesLoop_length (n : Nat) : ∀ t : Int, (toBytesLoop n t).length = n := by
  induction n with
  | zero => intro t; rfl
  | succ n ih => intro t; simp [toBytesLoop, ih]

theorem toBytesLoop_mem (n : Nat) :
    ∀ t : Int, ∀ b ∈ toBytesLoop n t, 0 ≤ b ∧ b ≤ 255 := by
  induction n with
  | zero => intro t b hb; simp [toBytesLoop] at hb
  | succ n ih =>
    intro t b hb
    simp only [toBytesLoop, List.mem_cons] at hb
    rcases hb with rfl | hb
    · refine ⟨Int.emod_nonneg t (by omega), ?_⟩
      have := Int.emod_lt_of_pos t (b := 256) (by omega)
      omega
    · exact ih _ b hb

theorem toBytesLoop_zero (n : Nat) : toBytesLoop n 0 = List.replicate n 0 := by
  induction n with
  | zero => rfl
  | succ n ih => simp [toBytesLoop, List.replicate, ih]

theorem emod_mul_split (a b c : Int) (hb : 0 < b) (hc : 0 < c) :
    a % (b * c) = a % b + b * (a / b % c) := by
  have e1 : b * (a / b) + a % b = a := Int.ediv_add_emod a b
  have e2 : c * (a / b / c) + a / b % c = a / b := Int.ediv_add_emod (a / b) c
  have ha : a = a % b + b * (a / b % c) + b * c * (a / b / c) := by nlinarith [e1, e2]
  have h0 : 0 ≤ a % b := Int.emod_nonneg a (by omega)
  have h1 : a % b < b := Int.emod_lt_of_pos a hb
  have h2 : 0 ≤ a / b % c := Int.emod_nonneg (a / b) (by omega)
  have h3 : a / b % c < c := Int.emod_lt_of_pos (a / b) hc
  calc a % (b * c)
      = (a % b + b * (a / b % c) + b * c * (a / b / c)) % (b * c) := by rw [← ha]
    _ = (a % b + b * (a / b % c)) % (b * c) :=
        Int.add_mul_emod_self_left (a := a % b + b * (a / b % c)) (b := b * c) (c := a / b / c)
    _ = a % b + b * (a / b % c) := by
        apply Int.emod_eq_of_lt
        · positivity
        · nlinarith [h0, h1, h2, h3]

theorem sumBytesLE_toBytesLoop (n : Nat) :
    ∀ t : Int, sumBytesLE (toBytesLoop n t) = t % 256 ^ n := by
  induction n with
  | zero => intro t; simp [toBytesLoop, sumBytesLE]
  | succ n ih =>
    intro t
    have hsplit : t % (256 * 256 ^ n) = t % 256 + 256 * (t / 256 % 256 ^ n) :=
      emod_mul_split t 256 (256 ^ n) (by omega) (by positivity)
    calc sumBytesLE (toBytesLoop (n + 1) t)
        = t % 256 + 256 * sumBytesLE (toBytesLoop n (t / 256)) := rfl
      _ = t % 256 + 256 * (t / 256 % 256 ^ n) := by rw [ih]
      _ = t % (256 * 256 ^ n) := hsplit.symm
      _ = t % 256 ^ (n + 1) := by ring_nf

theorem sumBytesLE_eq_sum (bs : List Int) :
    ∑ i ∈ Finset.range bs.length, bs.getD i 0 * 256 ^ i = sumBytesLE bs := by
  induction bs with
  | nil => simp [sumBytesLE]
  | cons b bs ih =>
    rw [List.length_cons, Finset.sum_range_succ']
    simp only [List.getD_cons_succ, List.getD_cons_zero, pow_zero, mul_one, pow_succ]
    calc (∑ i ∈ Finset.range bs.length, bs.getD i 0 * (256 ^ i * 256)) + b
        = 256 * (∑ i ∈ Finset.range bs.length, bs.getD i 0 * 256 ^ i) + b := by
          rw [Finset.mul_sum]; congr 1; apply Finset.sum_congr rfl; intro i _; ring
      _ = b + 256 * sumBytesLE bs := by rw [ih]; ring
      _ = sumBytesLE (b :: bs) := rfl

theorem hexLenAux_pos (fuel n : Nat) : 1 ≤ hexLenAux fuel n := by
  cases fuel with
  | zero => simp [hexLenAux]
  | succ fuel =>
    simp only [hexLenAux]
    split <;> omega

theorem hexLenAux_spec (fuel : Nat) :
    ∀ n : Nat, 1 ≤ n → n ≤ fuel →
      16 ^ (hexLenAux fuel n - 1) ≤ n ∧ n < 16 ^ hexLenAux fuel n := by
  induction fuel with
  | zero => intro n h1 h2; omega
  | succ fuel ih =>
    intro n h1 h2
    by_cases hlt : n < 16
    · simp only [hexLenAux, if_pos hlt]
      exact ⟨by simpa using h1, by simpa using hlt⟩
    · simp only [hexLenAux, if_neg hlt]
      push_neg at hlt
      have hq1 : 1 ≤ n / 16 := by omega
      have hq2 : n / 16 ≤ fuel := by omega
      obtain ⟨hlo, hhi⟩ := ih (n / 16) hq1 hq2
      have hp := hexLenAux_pos fuel (n / 16)
      constructor
      · have : 16 ^ (1 + hexLenAux fuel (n / 16) - 1) = 16 * 16 ^ (hexLenAux fuel (n / 16) - 1) := by
          rw [show 1 + hexLenAux fuel (n / 16) - 1 = (hexLenAux fuel (n / 16) - 1) + 1 by omega]
          ring
        rw [this]
        calc 16 * 16 ^ (hexLenAux fuel (n / 16) - 1) ≤ 16 * (n / 16) :=
              Nat.mul_le_mul_left 16 hlo
          _ ≤ n := by omega
      · have : 16 ^ (1 + hexLenAux fuel (n / 16)) = 16 * 16 ^ hexLenAux fuel (n / 16) := by ring
        rw [this]
        calc n < 16 * (n / 16) + 16 := by omega
          _ = 16 * (n / 16 + 1) := by ring
          _ ≤ 16 * 16 ^ hexLenAux fuel (n / 16) := by
              apply Nat.mul_le_mul_left
              omega

theorem hexLen_spec (n : Nat) (h : 1 ≤ n) :
    16 ^ (hexLen n - 1) ≤ n ∧ n < 16 ^ hexLen n :=
  hexLenAux_spec n n h le_rfl

/-! ### Claims about the byte encoder -/

/-- C7: for every integer value, every positive length `L`, and either byte
order, `bigIntToBytes` returns exactly `L` entries, each between 0 and 255. -/
theorem bigIntToBytes_length_range (v : Int) (L : Nat) (order : Bool) (hL : 0 < L) :
    (bigIntToBytes v L order).length = L ∧
      ∀ b ∈ bigIntToBytes v L order, 0 ≤ b ∧ b ≤ 255 := by
  unfold bigIntToBytes
  split
  · exact ⟨toBytesLoop_length L v, toBytesLoop_mem L v⟩
  · refine ⟨by simp [toBytesLoop_length L v], ?_⟩
    intro b hb
    rw [List.mem_reverse] at hb
    exact toBytesLoop_mem L v b hb

/-- Closed instance of `bigIntToBytes_length_range` at a concrete input. -/
theorem bigIntToBytes_length_range_witness :
    (bigIntToBytes (-300) 2 false).length = 2 :=
  (bigIntToBytes_length_range (-300) 2 false (by decide)).1

/-- C9: encoding zero yields `L` zero bytes for every positive `L` and
either byte order. -/
theorem bigIntToBytes_zero (L : Nat) (order : Bool) (hL : 0 < L) :
    bigIntToBytes 0 L order = List.replicate L 0 := by
  unfold bigIntToBytes
  split
  · exact toBytesLoop_zero L
  · rw [toBytesLoop_zero L, List.reverse_replicate]

/-- Closed instance of `bigIntToBytes_zero` at a concrete input. -/
theorem bigIntToBytes_zero_witness :
    bigIntToBytes 0 3 true = List.replicate 3 0 :=
  bigIntToBytes_zero 3 true (by decide)

/-- C4: for non-negative `v` and any length at least `calculateMinBytes v`,
the little-endian byte sequence reversed is the big-endian byte sequence. -/
theorem bigIntToBytes_reverse (v : Int) (L : Nat)
    (hv : 0 ≤ v) (hL : calculateMinBytes v ≤ L) :
    (bigIntToBytes v L true).reverse = bigIntToBytes v L false := by
  simp [bigIntToBytes]

/-- Closed instance of `bigIntToBytes_reverse` at a concrete input. -/
theorem bigIntToBytes_reverse_witness :
    (bigIntToBytes 4660 2 true).reverse = bigIntToBytes 4660 2 false :=
  bigIntToBytes_reverse 4660 2 (by decide) (by decide)

/-- C1: summing `byte[i] * 256^i` over the little-endian encoding of `v` at
any positive length `L` recovers `v` modulo `256^L`, where the remainder is
the mathematical non-negative one (truncation law). -/
theorem bigIntToBytes_roundtrip (v : Int) (L : Nat) (hL : 0 < L) :
    (∑ i ∈ Finset.range L, (bigIntToBytes v L true).getD i 0 * 256 ^ i) = v % 256 ^ L ∧
      0 ≤ v % 256 ^ L ∧ v % 256 ^ L < 256 ^ L := by
  refine ⟨?_, Int.emod_nonneg v (by positivity), Int.emod_lt_of_pos v (by positivity)⟩
  have hlen : (bigIntToBytes v L true).length = L := by
    simp [bigIntToBytes, toBytesLoop_length]
  calc (∑ i ∈ Finset.range L, (bigIntToBytes v L true).getD i 0 * 256 ^ i)
      = ∑ i ∈ Finset.range (bigIntToBytes v L true).length,
          (bigIntToBytes v L true).getD i 0 * 256 ^ i := by rw [hlen]
    _ = sumBytesLE (bigIntToBytes v L true) := sumBytesLE_eq_sum _
    _ = sumBytesLE (toBytesLoop L v) := by simp [bigIntToBytes]
    _ = v % 256 ^ L := sumBytesLE_toBytesLoop L v

/-- Closed instance of `bigIntToBytes_roundtrip` at a concrete input. -/
theorem bigIntToBytes_roundtrip_witness :
    (∑ i ∈ Finset.range 2, (bigIntToBytes (-1) 2 true).getD i 0 * 256 ^ i) =
      (-1 : Int) % 256 ^ 2 :=
  (bigIntToBytes_roundtrip (-1) 2 (by decide)).1

/-- C5: `calculateMinBytes 0 = 1`; for nonzero `v` the result is
`ceil(h / 2)` where `h = hexLen v.natAbs` genuinely counts the hexadecimal
digits of `|v|` (witnessed by the enclosing powers of 16), and the result is
always positive. -/
theorem calculateMinBytes_spec :
    calculateMinBytes 0 = 1 ∧
      (∀ v : Int, v ≠ 0 →
        (16 ^ (hexLen v.natAbs - 1) ≤ v.natAbs ∧ v.natAbs < 16 ^ hexLen v.natAbs) ∧
          hexLen v.natAbs ≤ 2 * calculateMinBytes v ∧
          2 * calculateMinBytes v ≤ hexLen v.natAbs + 1) ∧
      ∀ v : Int, 0 < calculateMinBytes v := by
  refine ⟨rfl, ?_, ?_⟩
  · intro v hv
    have h1 : 1 ≤ v.natAbs := by
      have := Int.natAbs_pos.mpr hv
      omega
    refine ⟨hexLen_spec v.natAbs h1, ?_, ?_⟩ <;>
      · simp only [calculateMinBytes, if_neg hv]
        omega
  · intro v
    unfold calculateMinBytes
    split
    · omega
    · have := hexLenAux_pos v.natAbs v.natAbs
      unfold hexLen
      omega

/-- Closed instance of `calculateMinBytes_spec` at a concrete input. -/
theorem calculateMinBytes_spec_witness :
    hexLen (17 : Int).natAbs ≤ 2 * calculateMinBytes 17 :=
  (calculateMinBytes_spec.2.1 17 (by decide)).2.1

/-- C8: for each configured word width (2, 4 or 8 bytes) the padded byte
length is `max(byteWidth, ceil(minBytes / byteWidth) * byteWidth)`, hence a
positive multiple of the word width that is at least `calculateMinBytes`. -/
theorem dynamicByteLength_spec (v : Int) (w : Nat) (hw : w = 2 ∨ w = 4 ∨ w = 8) :
    dynamicByteLength v w =
        max w ((calculateMinBytes v + w - 1) / w * w) ∧
      w ∣ dynamicByteLength v w ∧
      0 < dynamicByteLength v w ∧
      calculateMinBytes v ≤ dynamicByteLength v w := by
  have hmain : ∀ m : Nat, w ∣ max w ((m + w - 1) / w * w) ∧
      0 < max w ((m + w - 1) / w * w) ∧ m ≤ max w ((m + w - 1) / w * w) := by
    intro m
    rcases hw with rfl | rfl | rfl <;> exact ⟨by omega, by omega, by omega⟩
  exact ⟨rfl, (hmain (calculateMinBytes v)).1, (hmain (calculateMinBytes v)).2.1,
    (hmain (calculateMinBytes v)).2.2⟩

/-- Closed instance of `dynamicByteLength_spec` at a concrete input. -/
theorem dynamicByteLength_spec_witness :
    (4 : Nat) ∣ dynamicByteLength 305419896 4 :=
  (dynamicByteLength_spec 305419896 4 (by omega)).2.1

/-! ### Helper lemmas about parsing -/

theorem hexChar_ranges {c : Char} (h : (hexDigit? c).isSome = true) :
    (48 ≤ c.toNat ∧ c.toNat ≤ 57) ∨ (97 ≤ c.toNat ∧ c.toNat ≤ 102) ∨
      (65 ≤ c.toNat ∧ c.toNat ≤ 70) := by
  unfold hexDigit? hexDigitVal at h
  split_ifs at h with h1 h2 h3
  · exact Or.inl h1
  · exact Or.inr (Or.inl h2)
  · exact Or.inr (Or.inr h3)
  · simp at h

theorem hexChar_not_ws {c : Char} (h : (hexDigit? c).isSome = true) :
    isJsWhitespace c = false := by
  rcases hexChar_ranges h with h | h | h <;>
    · simp only [isJsWhitespace, Bool.or_eq_false_iff, Bool.and_eq_false_iff,
        decide_eq_false_iff_not, beq_eq_false_iff_ne, ne_eq]
      omega

theorem hexChar_ne_underscore {c : Char} (h : (hexDigit? c).isSome = true) :
    (c == '_') = false := by
  have hn : c.toNat ≠ 95 := by rcases hexChar_ranges h with h | h | h <;> omega
  have hne : c ≠ '_' := by
    intro hc
    rw [hc] at hn
    exact hn (by decide)
  simp [hne]

theorem cleanChars_mk (cs : List Char)
    (h : ∀ c ∈ cs, isJsWhitespace c = false ∧ (c == '_') = false) :
    cleanChars (String.mk cs) = cs := by
  unfold cleanChars
  have ht : (String.mk cs).toList = cs := rfl
  rw [ht]
  have e1 : cs.filter (fun c => !isJsWhitespace c) = cs :=
    List.filter_eq_self.mpr (fun c hc => by simp [(h c hc).1])
  rw [e1]
  exact List.filter_eq_self.mpr (fun c hc => by simp [(h c hc).2])

theorem dropWhile_ws_eq_self (l : List Char) (h : ∀ c ∈ l, isJsWhitespace c = false) :
    l.dropWhile isJsWhitespace = l := by
  cases l with
  | nil => rfl
  | cons a t =>
    rw [List.dropWhile_cons]
    simp [h a (List.mem_cons_self a t)]

theorem trimWs_eq_self (cs : List Char) (h : ∀ c ∈ cs, isJsWhitespace c = false) :
    trimWs cs = cs := by
  unfold trimWs
  rw [dropWhile_ws_eq_self cs h,
    dropWhile_ws_eq_self cs.reverse (fun c hc => h c (List.mem_reverse.mp hc)),
    List.reverse_reverse]

theorem parseDigitsFrom_eq (b : Nat) (dig : Char → Option Nat) :
    ∀ (cs : List Char) (acc : Nat), (∀ c ∈ cs, (dig c).isSome = true) →
      parseDigitsFrom b dig acc cs =
        some (cs.foldl (fun a c => b * a + (dig c).getD 0) acc) := by
  intro cs
  induction cs with
  | nil => intro acc _; rfl
  | cons c cs ih =>
    intro acc h
    obtain ⟨d, hd⟩ := Option.isSome_iff_exists.mp (h c (List.mem_cons_self c cs))
    simp only [parseDigitsFrom, hd, List.foldl_cons]
    rw [ih _ (fun x hx => h x (List.mem_cons_of_mem c hx))]
    rfl

theorem parseDigits_eq (b : Nat) (dig : Char → Option Nat) (cs : List Char)
    (hne : cs ≠ []) (h : ∀ c ∈ cs, (dig c).isSome = true) :
    parseDigits b dig cs = some (cs.foldl (fun a c => b * a + (dig c).getD 0) 0) := by
  cases cs with
  | nil => exact absurd rfl hne
  | cons c cs =>
    obtain ⟨d, hd⟩ := Option.isSome_iff_exists.mp (h c (List.mem_cons_self c cs))
    simp only [parseDigits, hd, List.foldl_cons]
    rw [parseDigitsFrom_eq b dig cs d (fun x hx => h x (List.mem_cons_of_mem c hx))]
    simp [hd]

theorem hexArg_of_hexDigits (cs : List Char) (h : ∀ c ∈ cs, (hexDigit? c).isSome = true) :
    hexArg cs = '0' :: 'x' :: cs := by
  unfold hexArg
  split
  · exfalso
    exact absurd (h 'x' (by simp)) (by decide)
  · rfl

theorem strToBigIntCore_hexDigits (cs : List Char) (hne : cs ≠ [])
    (h : ∀ c ∈ cs, (hexDigit? c).isSome = true) :
    strToBigIntCore ('0' :: 'x' :: cs) = some ((hexValue cs : Nat) : Int) := by
  have hp := parseDigits_eq 16 hexDigit? cs hne h
  simp [strToBigIntCore, hp, hexValue]

theorem strToBigInt_hexDigits (cs : List Char) (hne : cs ≠ [])
    (h : ∀ c ∈ cs, (hexDigit? c).isSome = true) :
    strToBigInt ('0' :: 'x' :: cs) = some ((hexValue cs : Nat) : Int) := by
  have hws : ∀ c ∈ ('0' :: 'x' :: cs), isJsWhitespace c = false := by
    intro c hc
    rcases List.mem_cons.mp hc with rfl | hc
    · decide
    rcases List.mem_cons.mp hc with rfl | hc
    · decide
    · exact hexChar_not_ws (h c hc)
  unfold strToBigInt
  rw [trimWs_eq_self _ hws]
  exact strToBigIntCore_hexDigits cs hne h

theorem hexDigitVal_shift32 (n : Nat) (h1 : 65 ≤ n) (h2 : n ≤ 90) :
    hexDigitVal n = hexDigitVal (n + 32) := by
  unfold hexDigitVal
  split_ifs <;> first | rfl | omega

theorem caseEquiv_hexDigit (c d : Char) (h : caseEquiv c d) :
    hexDigit? c = hexDigit? d := by
  unfold hexDigit?
  rcases h with h | ⟨h, h1, h2⟩ | ⟨h, h1, h2⟩
  · rw [h]
  · rw [← h]
    exact hexDigitVal_shift32 c.toNat h1 h2
  · rw [← h]
    exact (hexDigitVal_shift32 d.toNat h1 h2).symm

theorem foldl_hex_caseEquiv {cs ds : List Char} (h : List.Forall₂ caseEquiv cs ds) :
    ∀ acc : Nat,
      cs.foldl (fun a c => 16 * a + (hexDigit? c).getD 0) acc =
        ds.foldl (fun a c => 16 * a + (hexDigit? c).getD 0) acc := by
  induction h with
  | nil => intro _; rfl
  | cons hcd _ ih =>
    intro acc
    simp only [List.foldl_cons]
    rw [caseEquiv_hexDigit _ _ hcd]
    exact ih _

theorem hexValue_caseEquiv {cs ds : List Char} (h : List.Forall₂ caseEquiv cs ds) :
    hexValue cs = hexValue ds := by
  unfold hexValue
  exact foldl_hex_caseEquiv h 0

theorem hexChar_clean_facts {cs : List Char} (h : ∀ c ∈ cs, (hexDigit? c).isSome = true) :
    ∀ c ∈ cs, isJsWhitespace c = false ∧ (c == '_') = false :=
  fun c hc => ⟨hexChar_not_ws (h c hc), hexChar_ne_underscore (h c hc)⟩

theorem parseInput_hexFormat (cs : List Char)
    (h : ∀ c ∈ cs, (hexDigit? c).isSome = true) :
    parseInput (String.mk cs) InputType.hex = ((hexValue cs : Nat) : Int) := by
  by_cases hcs : cs = []
  · subst hcs
    decide
  · unfold parseInput
    rw [if_neg (show ¬((String.mk cs).toList = []) from hcs)]
    simp only [bigIntArg]
    rw [cleanChars_mk cs (hexChar_clean_facts h), hexArg_of_hexDigits cs h,
      strToBigInt_hexDigits cs hcs h]
    rfl

theorem parseInput_0x_hex (cs : List Char)
    (h : ∀ c ∈ cs, (hexDigit? c).isSome = true) :
    parseInput (String.mk ('0' :: 'x' :: cs)) InputType.hex = ((hexValue cs : Nat) : Int) := by
  unfold parseInput
  rw [if_neg (show ¬((String.mk ('0' :: 'x' :: cs)).toList = []) from
    List.cons_ne_nil '0' ('x' :: cs))]
  have hclean : cleanChars (String.mk ('0' :: 'x' :: cs)) = '0' :: 'x' :: cs := by
    apply cleanChars_mk
    intro c hc
    rcases List.mem_cons.mp hc with rfl | hc
    · exact ⟨by decide, by decide⟩
    rcases List.mem_cons.mp hc with rfl | hc
    · exact ⟨by decide, by decide⟩
    · exact hexChar_clean_facts h c hc
  simp only [bigIntArg, hclean]
  show (strToBigInt ('0' :: 'x' :: cs)).getD 0 = ((hexValue cs : Nat) : Int)
  by_cases hcs : cs = []
  · subst hcs
    decide
  · rw [strToBigInt_hexDigits cs hcs h]
    rfl

theorem parseInput_0x_dec (cs : List Char)
    (h : ∀ c ∈ cs, (hexDigit? c).isSome = true) :
    parseInput (String.mk ('0' :: 'x' :: cs)) InputType.dec = ((hexValue cs : Nat) : Int) := by
  unfold parseInput
  rw [if_neg (show ¬((String.mk ('0' :: 'x' :: cs)).toList = []) from
    List.cons_ne_nil '0' ('x' :: cs))]
  have hclean : cleanChars (String.mk ('0' :: 'x' :: cs)) = '0' :: 'x' :: cs := by
    apply cleanChars_mk
    intro c hc
    rcases List.mem_cons.mp hc with rfl | hc
    · exact ⟨by decide, by decide⟩
    rcases List.mem_cons.mp hc with rfl | hc
    · exact ⟨by decide, by decide⟩
    · exact hexChar_clean_facts h c hc
  simp only [bigIntArg, hclean]
  by_cases hcs : cs = []
  · subst hcs
    decide
  · rw [strToBigInt_hexDigits cs hcs h]
    rfl

theorem parseInput_0X_hex (cs : List Char)
    (h : ∀ c ∈ cs, (hexDigit? c).isSome = true) :
    parseInput (String.mk ('0' :: 'X' :: cs)) InputType.hex = 0 := by
  unfold parseInput
  rw [if_neg (show ¬((String.mk ('0' :: 'X' :: cs)).toList = []) from
    List.cons_ne_nil '0' ('X' :: cs))]
  have hclean : cleanChars (String.mk ('0' :: 'X' :: cs)) = '0' :: 'X' :: cs := by
    apply cleanChars_mk
    intro c hc
    rcases List.mem_cons.mp hc with rfl | hc
    · exact ⟨by decide, by decide⟩
    rcases List.mem_cons.mp hc with rfl | hc
    · exact ⟨by decide, by decide⟩
    · exact hexChar_clean_facts h c hc
  simp only [bigIntArg, hclean]
  show (strToBigIntCore (trimWs ('0' :: 'x' :: '0' :: 'X' :: cs))).getD 0 = 0
  have hws : ∀ c ∈ ('0' :: 'x' :: '0' :: 'X' :: cs), isJsWhitespace c = false := by
    intro c hc
    rcases List.mem_cons.mp hc with rfl | hc
    · decide
    rcases List.mem_cons.mp hc with rfl | hc
    · decide
    rcases List.mem_cons.mp hc with rfl | hc
    · decide
    rcases List.mem_cons.mp hc with rfl | hc
    · decide
    · exact hexChar_not_ws (h c hc)
  rw [trimWs_eq_self _ hws]
  rfl

/-! ### Claims about the input parser -/

/-- C3 counterexample: with the uppercase prefix `0X` the hex parse yields
0, not the value 6699 obtained with the lowercase prefix `0x`, because the
source tests `startsWith('0x')` case-sensitively and then builds the
invalid string `0x0X1A2B`. -/
theorem parseInput_upperX_counterexample :
    parseInput "0X1A2B" InputType.hex = 0 ∧
      parseInput "0x1A2B" InputType.hex = 6699 ∧ (0 : Int) ≠ 6699 := by
  refine ⟨by decide, by decide, by decide⟩

/-- C3 (amended): hex parsing accepts hex-digit input with or without the
lowercase `0x` prefix, and is case-insensitive in the digits; but writing
the prefix in uppercase (`0X`) is not recognised and parses to 0; in
particular `parse("1A2B", Hex) = parse("0x1A2B", Hex) = 6699`. -/
theorem parseInput_hex_flexibility :
    (∀ cs : List Char, (∀ c ∈ cs, (hexDigit? c).isSome = true) →
        parseInput (String.mk cs) InputType.hex =
          parseInput (String.mk ('0' :: 'x' :: cs)) InputType.hex) ∧
      (∀ cs ds : List Char, (∀ c ∈ cs, (hexDigit? c).isSome = true) →
        (∀ c ∈ ds, (hexDigit? c).isSome = true) →
        List.Forall₂ caseEquiv cs ds →
        parseInput (String.mk cs) InputType.hex =
          parseInput (String.mk ds) InputType.hex) ∧
      (∀ cs : List Char, (∀ c ∈ cs, (hexDigit? c).isSome = true) →
        parseInput (String.mk ('0' :: 'X' :: cs)) InputType.hex = 0) ∧
      parseInput "1A2B" InputType.hex = 6699 ∧
      parseInput "0x1A2B" InputType.hex = 6699 := by
  refine ⟨?_, ?_, parseInput_0X_hex, by decide, by decide⟩
  · intro cs h
    rw [parseInput_hexFormat cs h, parseInput_0x_hex cs h]
  · intro cs ds h1 h2 hfor
    rw [parseInput_hexFormat cs h1, parseInput_hexFormat ds h2]
    exact congrArg (fun n : Nat => (n : Int)) (hexValue_caseEquiv hfor)

/-- Closed instance of `parseInput_hex_flexibility` at a concrete input. -/
theorem parseInput_hex_flexibility_witness :
    parseInput (String.mk ['1', 'a']) InputType.hex =
      parseInput (String.mk ['1', 'A']) InputType.hex :=
  parseInput_hex_flexibility.2.1 ['1', 'a'] ['1', 'A'] (by decide) (by decide)
    (List.Forall₂.cons (Or.inl rfl)
      (List.Forall₂.cons (Or.inr (Or.inr ⟨by decide, by decide, by decide⟩))
        List.Forall₂.nil))

/-- C6: the parser is total and maps every malformed or empty input to
zero: the empty string parses to 0 in both formats, any input whose cleaned
text the `BigInt` grammar rejects parses to 0, any input that is empty
after stripping whitespace and underscores parses to 0, and in particular
`parse("abc", Decimal) = 0`. -/
theorem parseInput_total_zero_on_malformed :
    (∀ t : InputType, parseInput "" t = 0) ∧
      (∀ (input : String) (t : InputType),
        strToBigInt (bigIntArg input t) = none → parseInput input t = 0) ∧
      (∀ (input : String) (t : InputType),
        cleanChars input = [] → parseInput input t = 0) ∧
      parseInput "abc" InputType.dec = 0 := by
  refine ⟨fun t => rfl, ?_, ?_, by decide⟩
  · intro input t h
    unfold parseInput
    split
    · rfl
    · rw [h]
      rfl
  · intro input t h
    unfold parseInput
    split
    · rfl
    · cases t <;> simp only [bigIntArg] <;> rw [h] <;> rfl

/-- Closed instance of `parseInput_total_zero_on_malformed` at a concrete
input. -/
theorem parseInput_total_zero_on_malformed_witness :
    parseInput "zz9" InputType.dec = 0 :=
  parseInput_total_zero_on_malformed.2.1 "zz9" InputType.dec (by decide)

/-- C10: in decimal format an input with an explicit `0x` prefix over hex
digits is not mapped to zero: it parses to the value of the digits read in
base 16, the same value hex format assigns to the unprefixed digits. -/
theorem parseInput_dec_accepts_0x :
    ∀ cs : List Char, (∀ c ∈ cs, (hexDigit? c).isSome = true) →
      parseInput (String.mk ('0' :: 'x' :: cs)) InputType.dec = ((hexValue cs : Nat) : Int) ∧
        parseInput (String.mk ('0' :: 'x' :: cs)) InputType.dec =
          parseInput (String.mk cs) InputType.hex := by
  intro cs h
  refine ⟨parseInput_0x_dec cs h, ?_⟩
  rw [parseInput_0x_dec cs h, parseInput_hexFormat cs h]

/-- Closed instance of `parseInput_dec_accepts_0x` at a concrete input. -/
theorem parseInput_dec_accepts_0x_witness :
    parseInput (String.mk ['0', 'x', '1', 'A', '2', 'B']) InputType.dec =
      ((hexValue ['1', 'A', '2', 'B'] : Nat) : Int) :=
  (parseInput_dec_accepts_0x ['1', 'A', '2', 'B'] (by decide)).1

/-! ### Claim about the reinterpretation view -/

/-- C2: an interpretation entry is the unavailable marker (`none`) exactly
when fewer than its required byte width of encoded bytes is present (after
capping at the 8-byte buffer); the widths are 1 for `Int8`/`Uint8`, 2 for
`Int16`/`Uint16`, 4 for `Int32`/`Uint32`/`Float32`, 8 for
`Int64`/`Uint64`/`Float64`; in particular with 4 encoded bytes the `Int64`
entry is unavailable, not zero. -/
theorem interpretations_unavailable :
    (∀ (memoryBytes : List Int) (le : Bool) (k : InterpKind),
        interpretations memoryBytes le k = none ↔
          min memoryBytes.length 8 < minBytesOf k) ∧
      (minBytesOf .int8 = 1 ∧ minBytesOf .uint8 = 1 ∧ minBytesOf .int16 = 2 ∧
        minBytesOf .uint16 = 2 ∧ minBytesOf .int32 = 4 ∧ minBytesOf .uint32 = 4 ∧
        minBytesOf .float32 = 4 ∧ minBytesOf .int64 = 8 ∧ minBytesOf .uint64 = 8 ∧
        minBytesOf .float64 = 8) ∧
      interpretations (bigIntToBytes 305419896 4 true) true InterpKind.int64 = none := by
  refine ⟨?_, by decide, by decide⟩
  intro mb le k
  simp only [interpretations]
  split
  · next hlt => exact iff_of_true rfl hlt
  · next hge => exact iff_of_false (by simp) hge

end BitwiseVisualizer
